import Mathlib

/-!
# Verification of `alchemiscale-utilities`

A shallow embedding of the repository's three scripts:

* `src/asfes/create_network.py` — the Network Builder: reads molecule
  descriptors (SMILES strings, one per line), builds one solvation
  transformation per ordered pair of distinct descriptors, and serializes
  the resulting alchemical network.
* `src/asfes/gather.py` — the Results Gatherer: fetches per-transformation
  raw results from the remote service, aggregates repeats into a mean and
  standard deviation, and writes a tab-separated summary.
* `src/ahfes/old/restart-errors.py` — the Task Re-queuer: resets errored
  tasks to the waiting state.

File I/O and the remote client are modelled by passing their contents /
state explicitly; physical magnitudes (Python floats) are modelled as real
numbers; `pint` quantities are modelled as a magnitude together with an
energy unit carrying a rational conversion factor to a base unit.
Python exceptions (`IndexError` from `estimates[0]` on an empty list,
`KeyError` from `os.environ[...]`, `AttributeError` from `None.m`) are
modelled with `Except`.
-/

namespace AlchemiscaleUtilities

/-! ## Physical quantities (modelling `openff.units` / `pint`)

The gatherer only ever adds, subtracts, squares, square-roots and converts
energy quantities.  A unit is modelled by its conversion factor to a fixed
base unit (kJ/mol); `Quantity.to` mirrors `pint`'s `Quantity.to`, which
rescales the magnitude by the ratio of factors. -/

/-- An energy unit, identified by its conversion factor to kJ/mol. -/
inductive EUnit where
  | kJ_per_mol : EUnit
  | kcal_per_mol : EUnit
  deriving DecidableEq, Repr

/-- Conversion factor to the base unit (kJ/mol): 1 kcal = 4.184 kJ. -/
def EUnit.factor : EUnit → ℚ
  | .kJ_per_mol => 1
  | .kcal_per_mol => 4.184

theorem EUnit.factor_pos (u : EUnit) : 0 < u.factor := by
  cases u <;> norm_num [EUnit.factor]

/-- A physical quantity: magnitude `m` (a Python float, modelled as a real)
together with its unit `u`, mirroring `pint.Quantity`'s `.m` and `.u`. -/
structure Quantity where
  m : ℝ
  u : EUnit

/-- `q.to u` : convert `q` to unit `u` (pint rescales the magnitude by the
ratio of conversion factors). -/
def Quantity.to (q : Quantity) (u : EUnit) : Quantity :=
  ⟨q.m * ((q.u.factor / u.factor : ℚ) : ℝ), u⟩

/-- Subtraction of quantities: pint converts the right operand to the left
operand's unit, so the result carries the left operand's unit. -/
def Quantity.sub (a b : Quantity) : Quantity :=
  ⟨a.m - (b.to a.u).m, a.u⟩

/-- The physical value of a quantity, expressed in the base unit. -/
def Quantity.base (q : Quantity) : ℝ :=
  q.m * (q.u.factor : ℝ)

/-- A squared quantity (`err**2` in the code): magnitude `m` in unit `u²`. -/
structure QuantitySq where
  m : ℝ
  u : EUnit

/-- `q**2` on a quantity: square the magnitude, square the unit. -/
def Quantity.sq (q : Quantity) : QuantitySq :=
  ⟨q.m ^ 2, q.u⟩

/-- Addition of squared quantities: pint converts the right operand into the
left operand's (squared) unit, scaling by the squared factor ratio. -/
def QuantitySq.add (a b : QuantitySq) : QuantitySq :=
  ⟨a.m + b.m * ((b.u.factor / a.u.factor : ℚ) : ℝ) ^ 2, a.u⟩

/-- `np.sqrt` on a squared quantity: pint takes the square root of the
magnitude and of the unit, yielding the plain unit back. -/
noncomputable def QuantitySq.sqrtQ (a : QuantitySq) : Quantity :=
  ⟨Real.sqrt a.m, a.u⟩

/-! ## `numpy` statistics on lists of floats -/

/-- `np.average` of a list of floats: sum divided by length (`0/0 = 0` on
the empty list, which the code never reaches). -/
noncomputable def npAverage (l : List ℝ) : ℝ :=
  l.sum / l.length

/-- `np.std` of a list of floats: the population (not sample) standard
deviation, the square root of the mean squared deviation from the mean. -/
noncomputable def npStd (l : List ℝ) : ℝ :=
  Real.sqrt ((l.map (fun x => (x - npAverage l) ^ 2)).sum / l.length)

/-! ## `gather.py` data model -/

/-- The simulation phase recorded in a protocol unit result's
`outputs['simtype']`: vacuum or solvent. -/
inductive SimType where
  | vacuum : SimType
  | solvent : SimType
  deriving DecidableEq, Repr

/-- One per-repeat sub-run result (`gufe.ProtocolUnitResult`): whether it
succeeded (`result.ok()`), its phase (`outputs['simtype']`) and its
free-energy estimate (`outputs['unit_estimate']`). -/
structure ProtocolUnitResult where
  ok : Bool
  simtype : SimType
  unit_estimate : Quantity

/-- A raw per-repeat result bundle (`gufe.ProtocolDAGResult`), carrying its
list of protocol unit results. -/
structure ProtocolDAGResult where
  protocol_unit_results : List ProtocolUnitResult

/-- The Python exceptions the gatherer can die with. -/
inductive GatherErr where
  | indexError : GatherErr
  | keyError : GatherErr
  | attributeError : GatherErr
  deriving DecidableEq, Repr

/-- `_get_average_and_stdevs(estimates)`: takes the unit `u` of
`estimates[0]` (an `IndexError`, modelled as `none`, when the list is
empty), converts every estimate to `u`, and returns `np.average` and
`np.std` of the magnitudes, both carrying unit `u`. -/
noncomputable def _get_average_and_stdevs (estimates : List Quantity) :
    Option (Quantity × Quantity) :=
  match estimates with
  | [] => none
  | e0 :: _ =>
    let u := e0.u
    let dGs := estimates.map (fun i => (i.to u).m)
    some (⟨npAverage dGs, u⟩, ⟨npStd dGs, u⟩)

/-- The list `dG[st]` built by the loop in `_process_dagresults`: for each
DAG result, for each protocol unit result, append `unit_estimate` to the
phase list of its `simtype` when `result.ok()`.  Order is preserved. -/
def collectPhase (st : SimType) (dag_results : List ProtocolDAGResult) :
    List Quantity :=
  dag_results.flatMap (fun d =>
    d.protocol_unit_results.filterMap (fun r =>
      if r.ok ∧ r.simtype = st then some r.unit_estimate else none))

/-- `_process_dagresults(dag_results)`: returns `(None, None)` when the
list is empty; otherwise partitions successful unit results by phase,
averages each phase with `_get_average_and_stdevs` (an `IndexError` when a
phase list is empty), and returns
`(vac_dG - sol_dG, np.sqrt(vac_err**2 + sol_err**2))`. -/
noncomputable def _process_dagresults (dag_results : List ProtocolDAGResult) :
    Except GatherErr (Option Quantity × Option Quantity) :=
  if dag_results.length = 0 then
    .ok (none, none)
  else
    match _get_average_and_stdevs (collectPhase .vacuum dag_results),
          _get_average_and_stdevs (collectPhase .solvent dag_results) with
    | some (vac_dG, vac_err), some (sol_dG, sol_err) =>
      .ok (some (vac_dG.sub sol_dG), some ((vac_err.sq.add sol_err.sq).sqrtQ))
    | _, _ => .error .indexError

/-! ## `gather.py` result assembly and output -/

/-- Insertion into a Python `dict` modelled as an association list in
insertion order: assigning to an existing key updates it in place,
assigning to a fresh key appends it at the end. -/
def dictInsert {V : Type} (k : String) (v : V) :
    List (String × V) → List (String × V)
  | [] => [(k, v)]
  | (k', v') :: rest =>
    if k' = k then (k, v) :: rest else (k', v') :: dictInsert k v rest

/-- The gatherer's per-transformation loop in `run`: for each transformation
(identified by its name, paired with its fetched `ProtocolDAGResult` list),
compute `_process_dagresults` and store `(dG, err)` under the
transformation's name; a raised exception aborts the whole loop. -/
noncomputable def gatherLoop
    (acc : List (String × (Option Quantity × Option Quantity)))
    (transfs : List (String × List ProtocolDAGResult)) :
    Except GatherErr (List (String × (Option Quantity × Option Quantity))) :=
  match transfs with
  | [] => .ok acc
  | (name, drs) :: rest =>
    match _process_dagresults drs with
    | .error e => .error e
    | .ok r => gatherLoop (dictInsert name r acc) rest

/-- The header line written by `_write_results`. -/
def headerLine : String := "molecule\tdG (kcal/mol)\tstdev (kcal/mol)"

/-- One row of `_write_results` (without the trailing newline): when `dG`
is `None` the row is `name\tNone\tNone`; otherwise the bare magnitudes of
`dG` and `err` are printed (via the float formatter `fmt`, modelling
Python's `str` on floats, which Lean cannot compute on reals).  Accessing
`.m` on `None` when `dG` is present is an `AttributeError` (`none`). -/
def resultRow (fmt : ℝ → String) (name : String) :
    Option Quantity × Option Quantity → Option String
  | (none, _) => some (name ++ "\tNone\tNone")
  | (some d, some e) => some (name ++ "\t" ++ fmt d.m ++ "\t" ++ fmt e.m)
  | (some _, none) => none

/-- The result rows, written in dict insertion order; `none` models an
`AttributeError` on a `(some, none)` entry (unreachable from `run`, whose
aggregation only ever produces `(None, None)` or fully-present pairs, so
the partial file Python would leave behind in that case never arises). -/
def writeRows (fmt : ℝ → String) :
    List (String × (Option Quantity × Option Quantity)) →
    Option (List String)
  | [] => some []
  | r :: rest =>
    match resultRow fmt r.1 r.2, writeRows fmt rest with
    | some line, some lines => some (line :: lines)
    | _, _ => none

/-- `_write_results(results, results_file)`: the written file as its list
of lines — the header, then one row per entry of the results dict in
insertion order. -/
def _write_results (fmt : ℝ → String)
    (results : List (String × (Option Quantity × Option Quantity))) :
    Option (List String) :=
  (writeRows fmt results).map (fun rows => headerLine :: rows)

/-- Credential resolution in `run`: the explicit command-line argument when
supplied, otherwise the environment variable; `os.environ[...]` raises a
`KeyError` when the variable is absent. -/
def resolveCred (arg env : Option String) : Except GatherErr String :=
  match arg with
  | some v => .ok v
  | none =>
    match env with
    | some v => .ok v
    | none => .error .keyError

/-- The remote network as the gatherer sees it: for each transformation of
the network, its name (`asc.get_transformation(sk).name`) and its fetched
raw results (`asc.get_transformation_results(sk, True)`). -/
def RemoteNetwork : Type := List (String × List ProtocolDAGResult)

/-- `gather.run`: resolve both credentials (before the client is
constructed, hence before any remote call — on failure the remote state is
never consulted), loop over the network's transformations aggregating
results, and only then open and write the output file.  The first
component is the run's outcome; the second is the output file's content,
`none` when the run dies before the file is opened. -/
noncomputable def runGather (fmt : ℝ → String)
    (user_id user_key env_id env_key : Option String)
    (remote : RemoteNetwork) :
    Except GatherErr Unit × Option (List String) :=
  match resolveCred user_id env_id with
  | .error e => (.error e, none)
  | .ok _ =>
    match resolveCred user_key env_key with
    | .error e => (.error e, none)
    | .ok _ =>
      match gatherLoop [] remote with
      | .error e => (.error e, none)
      | .ok results =>
        match _write_results fmt results with
        | some lines => (.ok (), some lines)
        | none => (.error .attributeError, none)

/-! ## Unit-independent statistics (the specification side)

The physical mean and population standard deviation of a list of
quantities, computed on their base-unit values.  These are the spec's
"mean and standard deviation across repeats" stated independently of which
unit the code happens to compute in. -/

/-- The mean of the physical (base-unit) values of a list of quantities. -/
noncomputable def meanBase (l : List Quantity) : ℝ :=
  npAverage (l.map Quantity.base)

/-- The population standard deviation of the physical (base-unit) values
of a list of quantities. -/
noncomputable def stdBase (l : List Quantity) : ℝ :=
  npStd (l.map Quantity.base)

/-! ## `restart-errors.py` (Task Re-queuer)

The script is three client calls.  The client operations themselves are
external (the `alchemiscale` service); they are modelled from the spec's
remote-interface description: list tasks by status for a network, set
status for a set of tasks, get aggregate network status.  The remote task
table is a list of (task key, status) pairs. -/

/-- A remote task status (spec: "waiting, running, error, complete"). -/
inductive TaskStatus where
  | waiting : TaskStatus
  | running : TaskStatus
  | error : TaskStatus
  | complete : TaskStatus
  deriving DecidableEq, Repr

/-- The remote network's task table: task key paired with its status. -/
def TaskTable : Type := List (ℕ × TaskStatus)

/-- `asc.get_network_tasks(network_sk, status=...)`: the keys of the
network's tasks currently having the given status. -/
def get_network_tasks (tasks : TaskTable) (status : TaskStatus) : List ℕ :=
  (tasks.filter (fun p => p.2 = status)).map Prod.fst

/-- `asc.set_tasks_status(tasks, status)`: set the status of exactly the
listed tasks, leaving every other task untouched. -/
def set_tasks_status (tasks : TaskTable) (keys : List ℕ)
    (status : TaskStatus) : TaskTable :=
  tasks.map (fun p => if p.1 ∈ keys then (p.1, status) else p)

/-- `asc.get_network_status(network_sk)`: the aggregate status report,
modelled as the count of tasks per status. -/
def get_network_status (tasks : TaskTable) : TaskStatus → ℕ :=
  fun st => (tasks.filter (fun p => p.2 = st)).length

/-- The body of `restart-errors.py`: fetch the errored tasks, set exactly
that set to waiting, then query the aggregate status — a single
straight-line pass, no retry or backoff. -/
def restart_errors (tasks : TaskTable) : TaskTable × (TaskStatus → ℕ) :=
  let err_tasks := get_network_tasks tasks .error
  let tasks2 := set_tasks_status tasks err_tasks .waiting
  (tasks2, get_network_status tasks2)

/-! ## `create_network.py` (Network Builder) data model -/

/-- An OpenFF `Molecule` as the builder uses it: built from a SMILES
string by `Molecule.from_smiles` (conformer generation and partial-charge
assignment are external side effects carrying no data the builder reads),
with a mutable `name`. -/
structure Molecule where
  smiles : String
  name : String
  deriving DecidableEq, Repr

/-- `gen_off_molecule(smi)`: parse the SMILES and set `m.name = smi`. -/
def gen_off_molecule (smi : String) : Molecule :=
  { smiles := smi, name := smi }

/-- `openfe.SmallMoleculeComponent`: wraps an OpenFF molecule with a
component name. -/
structure SmallMoleculeComponent where
  molecule : Molecule
  name : String
  deriving DecidableEq, Repr

/-- `SmallMoleculeComponent.from_openff(offmol, name=...)`. -/
def SmallMoleculeComponent.from_openff (m : Molecule) (name : String) :
    SmallMoleculeComponent :=
  { molecule := m, name := name }

/-- `get_small_molecule_components`: one `SmallMoleculeComponent` per input
SMILES line, named after the molecule (whose name is the SMILES itself).
File reading (`get_smiles`) is abstracted to the list of lines. -/
def get_small_molecule_components (input_lines : List String) :
    List SmallMoleculeComponent :=
  input_lines.map (fun smi =>
    let offmol := gen_off_molecule smi
    SmallMoleculeComponent.from_openff offmol offmol.name)

/-- `pontibus.ExtendedSolventComponent`: the solvent drawn from one of the
input molecules, with an ion concentration (in molar). -/
structure ExtendedSolventComponent where
  solvent_molecule : SmallMoleculeComponent
  ion_concentration : ℚ
  deriving DecidableEq, Repr

/-- A component of a `ChemicalSystem` (those the builder uses). -/
inductive Component where
  | small : SmallMoleculeComponent → Component
  | solvent : ExtendedSolventComponent → Component
  deriving DecidableEq, Repr

/-- `openfe.ChemicalSystem`: a keyed collection of components. -/
structure ChemicalSystem where
  components : List (String × Component)
  deriving DecidableEq, Repr

/-- `_get_stateA`: the complex state, ligand dissolved in the solvent. -/
def _get_stateA (small_molecule_component : SmallMoleculeComponent)
    (solvent_component : ExtendedSolventComponent) : ChemicalSystem :=
  ⟨[("ligand", .small small_molecule_component),
    ("solvent", .solvent solvent_component)]⟩

/-- `_get_stateB`: the reference state, containing only the solvent. -/
def _get_stateB (solvent_component : ExtendedSolventComponent) :
    ChemicalSystem :=
  ⟨[("solvent", .solvent solvent_component)]⟩

/-! ### Protocol settings

`get_settings` starts from `ASFEProtocol.default_settings()` and overrides
the fields below with literal values; only the overridden fields are
modelled (the remaining defaults live in the external `pontibus` library
and are never read by this repository).  Magnitudes are rationals; the
unit of each field is fixed by the code and noted on the field. -/

/-- `settings.thermo_settings`: temperature in kelvin, pressure in bar. -/
structure ThermoSettings where
  temperature : ℚ
  pressure : ℚ
  deriving DecidableEq, Repr

/-- Force field settings for one phase: force field file names and the
hydrogen mass in amu. -/
structure ForceFieldSettings where
  forcefields : List String
  hydrogen_mass : ℚ
  deriving DecidableEq, Repr

/-- `PackmolSolvationSettings(number_of_solvent_molecules=…,
solvent_padding=…)`. -/
structure PackmolSolvationSettings where
  number_of_solvent_molecules : Option ℕ
  solvent_padding : Option ℚ
  deriving DecidableEq, Repr

/-- Integrator settings: timestep in femtoseconds, barostat frequency in
timesteps. -/
structure IntegratorSettings where
  timestep : ℚ
  barostat_frequency : ℚ
  deriving DecidableEq, Repr

/-- Non-alchemical equilibration settings for one phase, all in
picoseconds. -/
structure EquilSimulationSettings where
  equilibration_length_nvt : ℚ
  equilibration_length : ℚ
  production_length : ℚ
  deriving DecidableEq, Repr

/-- Alchemical simulation settings for one phase: lengths and exchange
interval in picoseconds, and the replica count. -/
structure SimulationSettings where
  equilibration_length : ℚ
  production_length : ℚ
  time_per_iteration : ℚ
  n_replicas : ℕ
  deriving DecidableEq, Repr

/-- The three parallel alchemical lambda schedules. -/
structure LambdaSettings where
  lambda_elec : List ℚ
  lambda_vdw : List ℚ
  lambda_restraints : List ℚ
  deriving DecidableEq, Repr

/-- The fields of the ASFE protocol settings that `get_settings` sets. -/
structure Settings where
  protocol_repeats : ℕ
  thermo_settings : ThermoSettings
  solvent_forcefield_settings : ForceFieldSettings
  vacuum_forcefield_settings : ForceFieldSettings
  solvation_settings : PackmolSolvationSettings
  integrator_settings : IntegratorSettings
  solvent_equil_simulation_settings : EquilSimulationSettings
  vacuum_equil_simulation_settings : EquilSimulationSettings
  solvent_simulation_settings : SimulationSettings
  vacuum_simulation_settings : SimulationSettings
  lambda_settings : LambdaSettings
  deriving DecidableEq, Repr

/-- `get_settings()`: the literal settings the builder attaches to every
transformation. -/
def get_settings : Settings where
  protocol_repeats := 1
  thermo_settings := { temperature := 298.15, pressure := 1 }
  solvent_forcefield_settings :=
    { forcefields := ["openff-2.2.1.offxml"], hydrogen_mass := 1.00784 }
  vacuum_forcefield_settings :=
    { forcefields := ["openff-2.2.1.offxml"], hydrogen_mass := 1.00784 }
  solvation_settings :=
    { number_of_solvent_molecules := some 1000, solvent_padding := none }
  integrator_settings := { timestep := 2, barostat_frequency := 25 }
  solvent_equil_simulation_settings :=
    { equilibration_length_nvt := 100, equilibration_length := 100,
      production_length := 100 }
  vacuum_equil_simulation_settings :=
    { equilibration_length_nvt := 0, equilibration_length := 100,
      production_length := 100 }
  solvent_simulation_settings :=
    { equilibration_length := 200, production_length := 2000,
      time_per_iteration := 1, n_replicas := 26 }
  vacuum_simulation_settings :=
    { equilibration_length := 200, production_length := 2000,
      time_per_iteration := 1, n_replicas := 26 }
  lambda_settings :=
    { lambda_elec :=
        [0.0, 0.2, 0.4, 0.6, 0.8, 1.0, 1.0, 1.0, 1.0, 1.0, 1.0, 1.0, 1.0,
         1.0, 1.0, 1.0, 1.0, 1.0, 1.0, 1.0, 1.0, 1.0, 1.0, 1.0, 1.0, 1.0],
      lambda_vdw :=
        [0.0, 0.0, 0.0, 0.0, 0.0, 0.0, 0.05, 0.1, 0.15, 0.2, 0.25, 0.3,
         0.35, 0.4, 0.45, 0.5, 0.55, 0.6, 0.65, 0.7, 0.75, 0.8, 0.85, 0.9,
         0.95, 1.0],
      lambda_restraints :=
        [0.0, 0.0, 0.0, 0.0, 0.0, 0.0, 0.0, 0.0, 0.0, 0.0, 0.0, 0.0, 0.0,
         0.0, 0.0, 0.0, 0.0, 0.0, 0.0, 0.0, 0.0, 0.0, 0.0, 0.0, 0.0, 0.0] }

/-- `pontibus.ASFEProtocol(settings=…)`. -/
structure ASFEProtocol where
  settings : Settings
  deriving DecidableEq, Repr

/-- `openfe.Transformation` as the builder constructs it (`mapping=None`
always). -/
structure Transformation where
  stateA : ChemicalSystem
  stateB : ChemicalSystem
  protocol : ASFEProtocol
  name : String
  deriving DecidableEq, Repr

/-- `itertools.permutations(l, 2)`: all ordered pairs `(l[i], l[j])` with
`i ≠ j`, enumerated in lexicographic index order. -/
def permutations2 {α : Type} (l : List α) : List (α × α) :=
  l.enum.flatMap (fun p =>
    (l.enum.filter (fun q => q.1 ≠ p.1)).map (fun q => (p.2, q.2)))

/-- `get_alchem_network`: build the solutes from the input lines, then for
every ordered pair `(solute, solvent_smc)` of distinct positions build the
solvent from `solvent_smc`, pair the complex state against the pure-solvent
state under the shared protocol, and name the transformation after the
solute.  The network is the resulting collection of transformations. -/
def get_alchem_network (input_lines : List String) (protocol : ASFEProtocol)
    (ion_concentration : ℚ) : List Transformation :=
  let solutes := get_small_molecule_components input_lines
  (permutations2 solutes).map (fun pr =>
    let solvent : ExtendedSolventComponent :=
      { solvent_molecule := pr.2, ion_concentration := ion_concentration }
    { stateA := _get_stateA pr.1 solvent
      stateB := _get_stateB solvent
      protocol := protocol
      name := pr.1.name })

/-- `create_network.run` (up to serialization): build the settings, wrap
them in a protocol, and build the network with the default ion
concentration `0.0*unit.molar`. -/
def run_build (input_lines : List String) : List Transformation :=
  get_alchem_network input_lines ⟨get_settings⟩ 0

/-- The solute descriptor of a transformation: the SMILES of the `ligand`
component of its `stateA`, when present. -/
def Transformation.soluteDesc (t : Transformation) : Option String :=
  match t.stateA.components.lookup "ligand" with
  | some (.small c) => some c.molecule.smiles
  | _ => none

/-- The solvent-source descriptor of a transformation: the SMILES of the
molecule the `solvent` component of its `stateB` was built from. -/
def Transformation.solventDesc (t : Transformation) : Option String :=
  match t.stateB.components.lookup "solvent" with
  | some (.solvent s) => some s.solvent_molecule.molecule.smiles
  | _ => none

/-- The (solute descriptor, solvent-source descriptor) pair of a
transformation. -/
def Transformation.descPair (t : Transformation) :
    Option String × Option String :=
  (t.soluteDesc, t.solventDesc)

/-! ## Statistics lemmas

Scaling laws for `np.average` and `np.std`, and the relation between the
magnitudes the code computes (in the first estimate's unit) and the
unit-independent physical statistics `meanBase` / `stdBase`. -/

theorem npAverage_map_mul (l : List ℝ) (c : ℝ) :
    npAverage (l.map (fun x => x * c)) = npAverage l * c := by
  unfold npAverage
  rw [List.length_map, List.sum_map_mul_right, List.map_id', mul_div_right_comm]

theorem npStd_map_mul (l : List ℝ) (c : ℝ) (hc : 0 ≤ c) :
    npStd (l.map (fun x => x * c)) = npStd l * c := by
  unfold npStd
  rw [npAverage_map_mul, List.map_map, List.length_map]
  have h1 : ((fun x => (x - npAverage l * c) ^ 2) ∘ fun x => x * c) =
      fun x => (x - npAverage l) ^ 2 * c ^ 2 := by
    funext x; simp only [Function.comp_apply]; ring
  rw [h1, List.sum_map_mul_right, mul_div_right_comm, Real.sqrt_mul, Real.sqrt_sq hc]
  apply div_nonneg
  · exact List.sum_nonneg (fun x hx => by
      obtain ⟨y, _, rfl⟩ := List.mem_map.mp hx
      positivity)
  · positivity

theorem factor_cast_pos (u : EUnit) : (0 : ℝ) < (u.factor : ℝ) := by
  exact_mod_cast u.factor_pos

/-- Converting a quantity to a unit `u` and reading it back in the base
unit recovers its physical value. -/
theorem to_base (q : Quantity) (u : EUnit) :
    (q.to u).m * (u.factor : ℝ) = q.base := by
  unfold Quantity.to Quantity.base
  have hu : ((u.factor : ℚ) : ℝ) ≠ 0 := ne_of_gt (factor_cast_pos u)
  push_cast
  field_simp

theorem map_to_base (l : List Quantity) (u : EUnit) :
    (l.map (fun i => (i.to u).m)).map (fun x => x * (u.factor : ℝ)) =
      l.map Quantity.base := by
  rw [List.map_map]
  exact List.map_congr_left (fun q _ => to_base q u)

/-- The physical mean is the code's converted-magnitude mean rescaled by
the conversion factor of the unit the code computed in. -/
theorem meanBase_eq (l : List Quantity) (u : EUnit) :
    meanBase l = npAverage (l.map (fun i => (i.to u).m)) * (u.factor : ℝ) := by
  unfold meanBase
  rw [← map_to_base l u, npAverage_map_mul]

/-- The physical population standard deviation is the code's
converted-magnitude standard deviation rescaled likewise. -/
theorem stdBase_eq (l : List Quantity) (u : EUnit) :
    stdBase l = npStd (l.map (fun i => (i.to u).m)) * (u.factor : ℝ) := by
  unfold stdBase
  rw [← map_to_base l u, npStd_map_mul]
  exact le_of_lt (factor_cast_pos u)

/-! ## Shared helpers for witnesses -/

/-- A concrete float formatter standing in for Python's `str` (its output
never matters in the rows the witnesses exercise). -/
def fmt0 : ℝ → String := fun _ => ""

/-! ## Claim theorems -/

/-- C9: in the protocol settings constructed by the Network Builder, the
three alchemical lambda schedules are parallel sequences of equal length
26, this length equals the configured replica count for both the vacuum
and solvent phases, every schedule value lies in [0, 1], the
electrostatics and van der Waals schedules are non-decreasing from 0.0 to
1.0, and the restraints schedule is identically 0.0. -/
theorem lambda_schedule_invariants :
    get_settings.lambda_settings.lambda_elec.length = 26 ∧
    get_settings.lambda_settings.lambda_vdw.length = 26 ∧
    get_settings.lambda_settings.lambda_restraints.length = 26 ∧
    get_settings.vacuum_simulation_settings.n_replicas = 26 ∧
    get_settings.solvent_simulation_settings.n_replicas = 26 ∧
    (∀ x ∈ get_settings.lambda_settings.lambda_elec, 0 ≤ x ∧ x ≤ 1) ∧
    (∀ x ∈ get_settings.lambda_settings.lambda_vdw, 0 ≤ x ∧ x ≤ 1) ∧
    (∀ x ∈ get_settings.lambda_settings.lambda_restraints, 0 ≤ x ∧ x ≤ 1) ∧
    List.Chain' (· ≤ ·) get_settings.lambda_settings.lambda_elec ∧
    List.Chain' (· ≤ ·) get_settings.lambda_settings.lambda_vdw ∧
    get_settings.lambda_settings.lambda_elec.head? = some 0 ∧
    get_settings.lambda_settings.lambda_elec.getLast? = some 1 ∧
    get_settings.lambda_settings.lambda_vdw.head? = some 0 ∧
    get_settings.lambda_settings.lambda_vdw.getLast? = some 1 ∧
    get_settings.lambda_settings.lambda_restraints = List.replicate 26 0 := by
  refine ⟨rfl, rfl, rfl, rfl, rfl, ?_, ?_, ?_, ?_, ?_, ?_, ?_, ?_, ?_, ?_⟩ <;>
    norm_num [get_settings, List.chain'_cons, List.getLast?, List.getLast,
      List.replicate]

/-- C5: each of the two credential values is taken from the explicit
command-line argument when supplied and otherwise from the corresponding
environment variable; when a credential is absent from both sources the
run fails with a `KeyError` before any remote call is attempted — the
outcome is the same for every possible remote state. -/
theorem credential_resolution (fmt : ℝ → String)
    (user_id user_key env_id env_key : Option String) :
    (∀ v, user_id = some v → resolveCred user_id env_id = .ok v) ∧
    (∀ v, user_id = none → env_id = some v →
      resolveCred user_id env_id = .ok v) ∧
    (∀ v, user_key = some v → resolveCred user_key env_key = .ok v) ∧
    (∀ v, user_key = none → env_key = some v →
      resolveCred user_key env_key = .ok v) ∧
    ((user_id = none ∧ env_id = none) ∨ (user_key = none ∧ env_key = none) →
      ∀ remote : RemoteNetwork,
        runGather fmt user_id user_key env_id env_key remote =
          (.error .keyError, none)) := by
  refine ⟨?_, ?_, ?_, ?_, ?_⟩
  · rintro v rfl; rfl
  · rintro v rfl rfl; rfl
  · rintro v rfl; rfl
  · rintro v rfl rfl; rfl
  · rintro (⟨rfl, rfl⟩ | ⟨rfl, rfl⟩) remote
    · rfl
    · unfold runGather
      cases h : resolveCred user_id env_id with
      | error e =>
        unfold resolveCred at h
        cases user_id with
        | some v => simp at h
        | none =>
          cases env_id with
          | some v => simp at h
          | none => simp at h; rw [h]
      | ok v => rfl

/-- C5 witness: with no arguments and no environment variables the run
fails with `KeyError` and touches no remote state; argument values win
over environment values. -/
theorem credential_resolution_witness :
    resolveCred (some "arg") (some "env") = .ok "arg" ∧
    resolveCred none (some "env") = .ok "env" ∧
    runGather fmt0 none none none (some "key") [] =
      (.error .keyError, none) :=
  ⟨(credential_resolution fmt0 (some "arg") none (some "env") none).1 "arg" rfl,
   (credential_resolution fmt0 none none (some "env") none).2.1 "env" rfl rfl,
   (credential_resolution fmt0 none none none (some "key")).2.2.2.2
     (Or.inl ⟨rfl, rfl⟩) []⟩

/-- C8: the Task Re-queuer fetches exactly the tasks currently in the
error state, sets exactly that set of tasks to waiting (leaving every
other task's status unchanged), and then reports the aggregate status of
the resulting network state — a single straight-line pass with no retry
or backoff.  (Task keys are assumed distinct, as they identify remote
tasks.) -/
theorem restart_errors_resets_errored_tasks (tasks : TaskTable)
    (h : (tasks.map Prod.fst).Nodup) :
    get_network_tasks tasks .error =
      (tasks.filter (fun p => p.2 = .error)).map Prod.fst ∧
    (restart_errors tasks).1 =
      tasks.map (fun p => if p.2 = .error then (p.1, .waiting) else p) ∧
    (restart_errors tasks).2 = get_network_status (restart_errors tasks).1 := by
  refine ⟨rfl, ?_, rfl⟩
  show set_tasks_status tasks (get_network_tasks tasks .error) .waiting = _
  unfold set_tasks_status
  apply List.map_congr_left
  intro p hp
  by_cases he : p.2 = .error
  · rw [if_pos he, if_pos]
    unfold get_network_tasks
    exact List.mem_map_of_mem Prod.fst (List.mem_filter.mpr ⟨hp, by simp [he]⟩)
  · rw [if_neg he, if_neg]
    intro hmem
    unfold get_network_tasks at hmem
    obtain ⟨q, hq, hqp⟩ := List.mem_map.mp hmem
    obtain ⟨hqmem, hqerr⟩ := List.mem_filter.mp hq
    have : q = p := List.inj_on_of_nodup_map h hqmem hp hqp
    exact he (by simp_all)

/-- C8 witness: on a concrete task table with one errored, one waiting and
one complete task, the errored task (and only it) moves to waiting and the
reported status is that of the updated table. -/
theorem restart_errors_resets_errored_tasks_witness :
    (([(0, .error), (1, .waiting), (2, .complete)] :
        TaskTable).map Prod.fst).Nodup ∧
    (get_network_tasks [(0, .error), (1, .waiting), (2, .complete)] .error =
      (([(0, .error), (1, .waiting), (2, .complete)] :
        TaskTable).filter (fun p => p.2 = .error)).map Prod.fst ∧
    (restart_errors [(0, .error), (1, .waiting), (2, .complete)]).1 =
      ([(0, .error), (1, .waiting), (2, .complete)] : TaskTable).map
        (fun p => if p.2 = .error then (p.1, .waiting) else p) ∧
    (restart_errors [(0, .error), (1, .waiting), (2, .complete)]).2 =
      get_network_status
        (restart_errors [(0, .error), (1, .waiting), (2, .complete)]).1) :=
  ⟨by decide, restart_errors_resets_errored_tasks _ (by decide)⟩

/-- C6: on a non-empty estimate list, the aggregation converts every
estimate to the unit of the first estimate before computing the mean and
standard deviation, both returned quantities carry that first estimate's
unit, and their physical values are the unit-independent mean and
population standard deviation of the input estimates. -/
theorem get_average_and_stdevs_converts_units (e0 : Quantity)
    (rest : List Quantity) :
    ∃ avg stdev : Quantity,
      _get_average_and_stdevs (e0 :: rest) = some (avg, stdev) ∧
      avg.u = e0.u ∧ stdev.u = e0.u ∧
      avg.m = npAverage ((e0 :: rest).map (fun i => (i.to e0.u).m)) ∧
      stdev.m = npStd ((e0 :: rest).map (fun i => (i.to e0.u).m)) ∧
      avg.base = meanBase (e0 :: rest) ∧
      stdev.base = stdBase (e0 :: rest) := by
  refine ⟨_, _, rfl, rfl, rfl, rfl, rfl, ?_, ?_⟩
  · rw [meanBase_eq (e0 :: rest) e0.u]; rfl
  · rw [stdBase_eq (e0 :: rest) e0.u]; rfl

/-- C6 witness: a concrete two-estimate list mixing kcal/mol and kJ/mol. -/
theorem get_average_and_stdevs_converts_units_witness :
    ∃ avg stdev : Quantity,
      _get_average_and_stdevs
          [⟨2, .kcal_per_mol⟩, ⟨1, .kJ_per_mol⟩] = some (avg, stdev) ∧
      avg.u = (⟨2, .kcal_per_mol⟩ : Quantity).u ∧
      stdev.u = (⟨2, .kcal_per_mol⟩ : Quantity).u ∧
      avg.m = npAverage (([⟨2, .kcal_per_mol⟩, ⟨1, .kJ_per_mol⟩] :
        List Quantity).map
          (fun i => (i.to (⟨2, .kcal_per_mol⟩ : Quantity).u).m)) ∧
      stdev.m = npStd (([⟨2, .kcal_per_mol⟩, ⟨1, .kJ_per_mol⟩] :
        List Quantity).map
          (fun i => (i.to (⟨2, .kcal_per_mol⟩ : Quantity).u).m)) ∧
      avg.base = meanBase [⟨2, .kcal_per_mol⟩, ⟨1, .kJ_per_mol⟩] ∧
      stdev.base = stdBase [⟨2, .kcal_per_mol⟩, ⟨1, .kJ_per_mol⟩] :=
  get_average_and_stdevs_converts_units ⟨2, .kcal_per_mol⟩ [⟨1, .kJ_per_mol⟩]

/-- Dropping the failed unit results of every DAG result leaves each phase
list unchanged: unsuccessful repeats are excluded from aggregation. -/
theorem collectPhase_ignores_failed (st : SimType)
    (drs : List ProtocolDAGResult) :
    collectPhase st (drs.map (fun dr =>
      ⟨dr.protocol_unit_results.filter (fun r => r.ok)⟩)) =
      collectPhase st drs := by
  unfold collectPhase
  induction drs with
  | nil => rfl
  | cons d ds ih =>
    simp only [List.map_cons, List.flatMap_cons]
    rw [ih]
    congr 1
    show (d.protocol_unit_results.filter (fun r => r.ok)).filterMap _ = _
    induction d.protocol_unit_results with
    | nil => rfl
    | cons r rs ih2 =>
      by_cases hr : r.ok <;>
        simp [List.filter_cons, List.filterMap_cons, hr, ih2]

/-- Combining two standard deviations computed in different (positive-
factor) units: the quadrature the code computes in the vacuum unit, read
back as a physical value, is the quadrature of the physical values. -/
theorem sqrt_quadrature_scale (A B fv fs : ℝ) (hfv : 0 < fv) :
    Real.sqrt (A ^ 2 + B ^ 2 * (fs / fv) ^ 2) * fv =
      Real.sqrt ((A * fv) ^ 2 + (B * fs) ^ 2) := by
  have h1 : (A * fv) ^ 2 + (B * fs) ^ 2 =
      (A ^ 2 + B ^ 2 * (fs / fv) ^ 2) * fv ^ 2 := by
    field_simp
    ring
  rw [h1, Real.sqrt_mul (by positivity), Real.sqrt_sq hfv.le]

/-- C2 (amended): for every transformation with at least one raw
per-repeat result and at least one successful estimate in each phase, the
reported free-energy estimate is the mean of the successful vacuum-phase
estimates minus the mean of the successful solvent-phase estimates, and
the reported error is the quadrature of the two phases' population
standard deviations (all as physical values); unsuccessful repeats are
excluded from both phase lists, with no count kept anywhere. -/
theorem process_dagresults_mean_difference (drs : List ProtocolDAGResult)
    (hvac : collectPhase .vacuum drs ≠ [])
    (hsol : collectPhase .solvent drs ≠ []) :
    (∃ d e : Quantity,
      _process_dagresults drs = .ok (some d, some e) ∧
      d.base = meanBase (collectPhase .vacuum drs) -
        meanBase (collectPhase .solvent drs) ∧
      e.base = Real.sqrt (stdBase (collectPhase .vacuum drs) ^ 2 +
        stdBase (collectPhase .solvent drs) ^ 2)) ∧
    (∀ (st : SimType) (drs2 : List ProtocolDAGResult),
      collectPhase st (drs2.map (fun dr =>
        ⟨dr.protocol_unit_results.filter (fun r => r.ok)⟩)) =
        collectPhase st drs2) := by
  refine ⟨?_, collectPhase_ignores_failed⟩
  have hne : drs ≠ [] := by
    rintro rfl
    exact hvac rfl
  have hlen : ¬ drs.length = 0 := by
    simpa [List.length_eq_zero] using hne
  obtain ⟨v0, vrest, hv⟩ := List.exists_cons_of_ne_nil hvac
  obtain ⟨s0, srest, hs⟩ := List.exists_cons_of_ne_nil hsol
  unfold _process_dagresults
  rw [if_neg hlen, hv, hs]
  refine ⟨_, _, rfl, ?_, ?_⟩
  · show ((⟨npAverage ((v0 :: vrest).map (fun i => (i.to v0.u).m)), v0.u⟩ :
        Quantity).sub
        ⟨npAverage ((s0 :: srest).map (fun i => (i.to s0.u).m)), s0.u⟩).base =
      _
    rw [meanBase_eq (v0 :: vrest) v0.u, meanBase_eq (s0 :: srest) s0.u]
    unfold Quantity.sub Quantity.to Quantity.base
    have hfv : ((v0.u.factor : ℚ) : ℝ) ≠ 0 := ne_of_gt (factor_cast_pos _)
    push_cast
    field_simp
  · show ((((⟨npStd ((v0 :: vrest).map (fun i => (i.to v0.u).m)), v0.u⟩ :
        Quantity).sq).add
        ((⟨npStd ((s0 :: srest).map (fun i => (i.to s0.u).m)), s0.u⟩ :
          Quantity).sq)).sqrtQ).base = _
    rw [stdBase_eq (v0 :: vrest) v0.u, stdBase_eq (s0 :: srest) s0.u]
    unfold Quantity.sq QuantitySq.add QuantitySq.sqrtQ Quantity.base
    have hfv : (0 : ℝ) < (v0.u.factor : ℝ) := factor_cast_pos _
    push_cast
    exact sqrt_quadrature_scale _ _ _ _ hfv

/-- C2 witness: a concrete result bundle with one successful estimate per
phase and one failed vacuum repeat (which is excluded). -/
theorem process_dagresults_mean_difference_witness :
    collectPhase .vacuum
      [⟨[⟨true, .vacuum, ⟨1, .kJ_per_mol⟩⟩, ⟨true, .solvent, ⟨2, .kJ_per_mol⟩⟩,
         ⟨false, .vacuum, ⟨100, .kJ_per_mol⟩⟩]⟩] ≠ [] ∧
    collectPhase .solvent
      [⟨[⟨true, .vacuum, ⟨1, .kJ_per_mol⟩⟩, ⟨true, .solvent, ⟨2, .kJ_per_mol⟩⟩,
         ⟨false, .vacuum, ⟨100, .kJ_per_mol⟩⟩]⟩] ≠ [] ∧
    ((∃ d e : Quantity,
      _process_dagresults
        [⟨[⟨true, .vacuum, ⟨1, .kJ_per_mol⟩⟩, ⟨true, .solvent, ⟨2, .kJ_per_mol⟩⟩,
           ⟨false, .vacuum, ⟨100, .kJ_per_mol⟩⟩]⟩] = .ok (some d, some e) ∧
      d.base = meanBase (collectPhase .vacuum
        [⟨[⟨true, .vacuum, ⟨1, .kJ_per_mol⟩⟩, ⟨true, .solvent, ⟨2, .kJ_per_mol⟩⟩,
           ⟨false, .vacuum, ⟨100, .kJ_per_mol⟩⟩]⟩]) -
        meanBase (collectPhase .solvent
        [⟨[⟨true, .vacuum, ⟨1, .kJ_per_mol⟩⟩, ⟨true, .solvent, ⟨2, .kJ_per_mol⟩⟩,
           ⟨false, .vacuum, ⟨100, .kJ_per_mol⟩⟩]⟩]) ∧
      e.base = Real.sqrt (stdBase (collectPhase .vacuum
        [⟨[⟨true, .vacuum, ⟨1, .kJ_per_mol⟩⟩, ⟨true, .solvent, ⟨2, .kJ_per_mol⟩⟩,
           ⟨false, .vacuum, ⟨100, .kJ_per_mol⟩⟩]⟩]) ^ 2 +
        stdBase (collectPhase .solvent
        [⟨[⟨true, .vacuum, ⟨1, .kJ_per_mol⟩⟩, ⟨true, .solvent, ⟨2, .kJ_per_mol⟩⟩,
           ⟨false, .vacuum, ⟨100, .kJ_per_mol⟩⟩]⟩]) ^ 2)) ∧
    (∀ (st : SimType) (drs2 : List ProtocolDAGResult),
      collectPhase st (drs2.map (fun dr =>
        ⟨dr.protocol_unit_results.filter (fun r => r.ok)⟩)) =
        collectPhase st drs2)) := by
  have hv : collectPhase .vacuum
      [⟨[⟨true, .vacuum, ⟨1, .kJ_per_mol⟩⟩, ⟨true, .solvent, ⟨2, .kJ_per_mol⟩⟩,
         ⟨false, .vacuum, ⟨100, .kJ_per_mol⟩⟩]⟩] =
      [(⟨1, .kJ_per_mol⟩ : Quantity)] := rfl
  have hs : collectPhase .solvent
      [⟨[⟨true, .vacuum, ⟨1, .kJ_per_mol⟩⟩, ⟨true, .solvent, ⟨2, .kJ_per_mol⟩⟩,
         ⟨false, .vacuum, ⟨100, .kJ_per_mol⟩⟩]⟩] =
      [(⟨2, .kJ_per_mol⟩ : Quantity)] := rfl
  have h1 : collectPhase .vacuum
      [⟨[⟨true, .vacuum, ⟨1, .kJ_per_mol⟩⟩, ⟨true, .solvent, ⟨2, .kJ_per_mol⟩⟩,
         ⟨false, .vacuum, ⟨100, .kJ_per_mol⟩⟩]⟩] ≠ [] := by
    rw [hv]; exact List.cons_ne_nil _ _
  have h2 : collectPhase .solvent
      [⟨[⟨true, .vacuum, ⟨1, .kJ_per_mol⟩⟩, ⟨true, .solvent, ⟨2, .kJ_per_mol⟩⟩,
         ⟨false, .vacuum, ⟨100, .kJ_per_mol⟩⟩]⟩] ≠ [] := by
    rw [hs]; exact List.cons_ne_nil _ _
  exact ⟨h1, h2, process_dagresults_mean_difference _ h1 h2⟩

/-- C2 counterexample to the claim as stated: a transformation with one
raw per-repeat result whose only sub-run failed has at least one raw
result, yet the gatherer reports no estimate at all — it raises an
`IndexError` (`estimates[0]` on an empty phase list) instead of computing
the claimed mean difference. -/
theorem process_dagresults_all_failed_raises :
    _process_dagresults [⟨[⟨false, .solvent, ⟨1, .kcal_per_mol⟩⟩]⟩] =
      .error .indexError :=
  rfl

/-- C3 (amended): a transformation's result is reported as fully absent
(`(None, None)`) exactly when the fetched result list is wholly empty;
when the list is non-empty but either phase has zero successful repeat
estimates, the gatherer instead raises an `IndexError` that terminates the
run. -/
theorem process_dagresults_absent_or_raises (drs : List ProtocolDAGResult) :
    (drs = [] → _process_dagresults drs = .ok (none, none)) ∧
    (drs ≠ [] →
      collectPhase .vacuum drs = [] ∨ collectPhase .solvent drs = [] →
      _process_dagresults drs = .error .indexError) := by
  constructor
  · rintro rfl
    rfl
  · intro hne hor
    have hlen : ¬ drs.length = 0 := by
      simpa [List.length_eq_zero] using hne
    unfold _process_dagresults
    rw [if_neg hlen]
    rcases hor with h | h
    · rw [h]
      rfl
    · rw [h]
      cases hx : _get_average_and_stdevs (collectPhase .vacuum drs) with
      | none => rfl
      | some p =>
        cases p with
        | mk a b => rfl

/-- C3 witness: the empty fetched list is reported absent; a non-empty
fetched list whose successful estimates are all vacuum-phase raises. -/
theorem process_dagresults_absent_or_raises_witness :
    _process_dagresults [] = .ok (none, none) ∧
    _process_dagresults [⟨[⟨true, .vacuum, ⟨3, .kJ_per_mol⟩⟩]⟩] =
      .error .indexError :=
  ⟨(process_dagresults_absent_or_raises []).1 rfl,
   (process_dagresults_absent_or_raises _).2 (List.cons_ne_nil _ _)
     (Or.inr rfl)⟩

/-- C3 counterexample to the claim as stated: fetched results whose only
successful estimate is solvent-phase leave the vacuum-phase list empty;
the claim requires a fully absent row, but the gatherer raises an
`IndexError` that terminates the run and never reports the absent
marker. -/
theorem process_dagresults_empty_phase_not_absent :
    _process_dagresults [⟨[⟨true, .solvent, ⟨1, .kcal_per_mol⟩⟩]⟩] =
      .error .indexError ∧
    _process_dagresults [⟨[⟨true, .solvent, ⟨1, .kcal_per_mol⟩⟩]⟩] ≠
      .ok (none, none) := by
  refine ⟨rfl, ?_⟩
  intro h
  rw [show _process_dagresults [⟨[⟨true, .solvent, ⟨1, .kcal_per_mol⟩⟩]⟩] =
    .error .indexError from rfl] at h
  exact Except.noConfusion h

/-! ## Result-dictionary lemmas (for the output-format claims) -/

/-- Updating an existing key (head position) keeps its place. -/
theorem dictInsert_cons_eq {V : Type} (k : String) (v v' : V)
    (rest : List (String × V)) :
    dictInsert k v ((k, v') :: rest) = (k, v) :: rest := by
  simp [dictInsert]

/-- Inserting under a different head key recurses past the head. -/
theorem dictInsert_cons_ne {V : Type} (k k' : String) (v v' : V)
    (rest : List (String × V)) (hk : k' ≠ k) :
    dictInsert k v ((k', v') :: rest) = (k', v') :: dictInsert k v rest := by
  simp [dictInsert, hk]

/-- Membership in the keys of a dict after insertion. -/
theorem dictInsert_mem_keys {V : Type} (k : String) (v : V)
    (l : List (String × V)) (x : String) :
    x ∈ (dictInsert k v l).map Prod.fst ↔
      x = k ∨ x ∈ l.map Prod.fst := by
  induction l with
  | nil => simp [dictInsert]
  | cons p rest ih =>
    obtain ⟨k', v'⟩ := p
    by_cases hk : k' = k
    · subst hk
      rw [dictInsert_cons_eq]
      simp
    · rw [dictInsert_cons_ne k k' v v' rest hk]
      simp only [List.map_cons, List.mem_cons, ih]
      tauto

/-- Insertion preserves distinctness of the dict's keys. -/
theorem dictInsert_nodup {V : Type} (k : String) (v : V)
    (l : List (String × V)) (h : (l.map Prod.fst).Nodup) :
    ((dictInsert k v l).map Prod.fst).Nodup := by
  induction l with
  | nil => simp [dictInsert]
  | cons p rest ih =>
    obtain ⟨k', v'⟩ := p
    simp only [List.map_cons, List.nodup_cons] at h
    by_cases hk : k' = k
    · subst hk
      rw [dictInsert_cons_eq]
      simp only [List.map_cons, List.nodup_cons]
      exact h
    · rw [dictInsert_cons_ne k k' v v' rest hk]
      simp only [List.map_cons, List.nodup_cons]
      refine ⟨?_, ih h.2⟩
      rw [dictInsert_mem_keys]
      rintro (rfl | hmem)
      · exact hk rfl
      · exact h.1 hmem

/-- The key set after insertion is the old key set plus the new key. -/
theorem dictInsert_keys_toFinset {V : Type} (k : String) (v : V)
    (l : List (String × V)) :
    ((dictInsert k v l).map Prod.fst).toFinset =
      insert k (l.map Prod.fst).toFinset := by
  ext x
  simp only [List.mem_toFinset, Finset.mem_insert, dictInsert_mem_keys]

/-- Every value of a dict after insertion is an old value or the new one. -/
theorem dictInsert_forall {V : Type} (P : V → Prop) (k : String) (v : V)
    (l : List (String × V)) (h : ∀ p ∈ l, P p.2) (hv : P v) :
    ∀ p ∈ dictInsert k v l, P p.2 := by
  induction l with
  | nil =>
    intro p hp
    rw [show dictInsert k v ([] : List (String × V)) = [(k, v)] from rfl,
      List.mem_singleton] at hp
    subst hp
    exact hv
  | cons q rest ih =>
    obtain ⟨k', v'⟩ := q
    intro p hp
    by_cases hk : k' = k
    · subst hk
      rw [dictInsert_cons_eq, List.mem_cons] at hp
      rcases hp with rfl | hp
      · exact hv
      · exact h _ (List.mem_cons_of_mem _ hp)
    · rw [dictInsert_cons_ne k k' v v' rest hk, List.mem_cons] at hp
      rcases hp with rfl | hp
      · exact h _ (List.mem_cons_self _ _)
      · exact ih (fun q hq => h q (List.mem_cons_of_mem _ hq)) p hp

/-- The shape of every aggregation result: fully absent or fully present. -/
def ResShape (r : Option Quantity × Option Quantity) : Prop :=
  r.1 = none ∨ ∃ d e, r = (some d, some e)

/-- `_process_dagresults` only ever returns `(None, None)` or a fully
present pair. -/
theorem process_dagresults_shape (drs : List ProtocolDAGResult)
    (r : Option Quantity × Option Quantity)
    (h : _process_dagresults drs = .ok r) : ResShape r := by
  unfold _process_dagresults at h
  by_cases hlen : drs.length = 0
  · rw [if_pos hlen] at h
    cases h
    left
    rfl
  · rw [if_neg hlen] at h
    cases hx : _get_average_and_stdevs (collectPhase .vacuum drs) with
    | none =>
      rw [hx] at h
      exact Except.noConfusion h
    | some p =>
      obtain ⟨a, b⟩ := p
      rw [hx] at h
      cases hy : _get_average_and_stdevs (collectPhase .solvent drs) with
      | none =>
        rw [hy] at h
        exact Except.noConfusion h
      | some q =>
        obtain ⟨c, d⟩ := q
        rw [hy] at h
        cases h
        right
        exact ⟨_, _, rfl⟩

/-- Invariants of the gatherer's aggregation loop: distinct keys stay
distinct, the final key set is the initial key set plus the names of the
processed transformations, and every stored value is shaped. -/
theorem gatherLoop_ok_spec (transfs : List (String × List ProtocolDAGResult)) :
    ∀ acc res, gatherLoop acc transfs = .ok res →
      ((acc.map Prod.fst).Nodup → (res.map Prod.fst).Nodup) ∧
      ((res.map Prod.fst).toFinset =
        (acc.map Prod.fst).toFinset ∪ (transfs.map Prod.fst).toFinset) ∧
      ((∀ p ∈ acc, ResShape p.2) → ∀ p ∈ res, ResShape p.2) := by
  induction transfs with
  | nil =>
    intro acc res h
    cases h
    exact ⟨id, by simp, id⟩
  | cons t rest ih =>
    obtain ⟨name, drs⟩ := t
    intro acc res h
    unfold gatherLoop at h
    cases hp : _process_dagresults drs with
    | error e =>
      rw [hp] at h
      exact Except.noConfusion h
    | ok r =>
      rw [hp] at h
      obtain ⟨hnd, hfin, hshape⟩ := ih (dictInsert name r acc) res h
      refine ⟨?_, ?_, ?_⟩
      · intro hacc
        exact hnd (dictInsert_nodup _ _ _ hacc)
      · rw [hfin, dictInsert_keys_toFinset]
        simp [Finset.insert_union, Finset.union_insert]
      · intro hacc
        exact hshape (dictInsert_forall ResShape _ _ _ hacc
          (process_dagresults_shape _ _ hp))

/-- On shaped results every row is written, one per dict entry, and each
row is either an absent-marker row or a fully numeric row. -/
theorem writeRows_shape (fmt : ℝ → String)
    (results : List (String × (Option Quantity × Option Quantity)))
    (h : ∀ p ∈ results, ResShape p.2) :
    ∃ rows, writeRows fmt results = some rows ∧
      rows.length = results.length ∧
      ∀ line ∈ rows, (∃ n, line = n ++ "\tNone\tNone") ∨
        (∃ n d e, line = n ++ "\t" ++ fmt d ++ "\t" ++ fmt e) := by
  induction results with
  | nil => exact ⟨[], rfl, rfl, by simp⟩
  | cons p rest ih =>
    obtain ⟨rows, hr, hlen, hform⟩ :=
      ih (fun q hq => h q (List.mem_cons_of_mem _ hq))
    obtain ⟨name, r1, r2⟩ := p
    have hp := h _ (List.mem_cons_self _ _)
    have hrow : ∃ line, resultRow fmt name (r1, r2) = some line ∧
        ((∃ n, line = n ++ "\tNone\tNone") ∨
          (∃ n d e, line = n ++ "\t" ++ fmt d ++ "\t" ++ fmt e)) := by
      rcases hp with h1 | ⟨d, e, h2⟩
      · simp only at h1
        subst h1
        exact ⟨_, rfl, Or.inl ⟨name, rfl⟩⟩
      · injection h2 with h2a h2b
        subst h2a
        subst h2b
        exact ⟨_, rfl, Or.inr ⟨name, d.m, e.m, rfl⟩⟩
    obtain ⟨line, hline, hlform⟩ := hrow
    refine ⟨line :: rows, ?_, by simp [hlen], ?_⟩
    · unfold writeRows
      rw [hline, hr]
    · intro l hl
      rcases List.mem_cons.mp hl with rfl | hl
      · exact hlform
      · exact hform l hl

/-- C4 (amended): the results file is one header line followed by exactly
one row per distinct transformation name of the network (a later
transformation sharing an earlier one's name overwrites its row), each
row being the name and the two bare magnitudes, or the name and the
literal `None` twice when the result is absent. -/
theorem write_results_one_row_per_name (fmt : ℝ → String)
    (transfs : List (String × List ProtocolDAGResult))
    (results : List (String × (Option Quantity × Option Quantity)))
    (h : gatherLoop [] transfs = .ok results) :
    ∃ lines, _write_results fmt results = some lines ∧
      lines.head? = some headerLine ∧
      lines.length = 1 + (transfs.map Prod.fst).toFinset.card ∧
      ∀ line ∈ lines.tail, (∃ n, line = n ++ "\tNone\tNone") ∨
        (∃ n d e, line = n ++ "\t" ++ fmt d ++ "\t" ++ fmt e) := by
  obtain ⟨hnd, hfin, hshape⟩ := gatherLoop_ok_spec transfs [] results h
  have hnd' := hnd (by simp)
  have hsh := hshape (by simp)
  obtain ⟨rows, hr, hlen, hform⟩ := writeRows_shape fmt results hsh
  refine ⟨headerLine :: rows, ?_, rfl, ?_, ?_⟩
  · unfold _write_results
    rw [hr]
    rfl
  · have h1 : results.length = (results.map Prod.fst).toFinset.card := by
      rw [List.toFinset_card_of_nodup hnd']
      simp
    have h2 : (results.map Prod.fst).toFinset =
        (transfs.map Prod.fst).toFinset := by
      rw [hfin]
      simp
    simp only [List.length_cons, hlen, h1, h2]
    omega
  · simpa using hform

/-- C4 witness: a single-transformation network with no results yet yields
the header plus one absent row. -/
theorem write_results_one_row_per_name_witness :
    gatherLoop [] [("A", [])] = .ok [("A", (none, none))] ∧
    ∃ lines, _write_results fmt0 [("A", (none, none))] = some lines ∧
      lines.head? = some headerLine ∧
      lines.length = 1 +
        (([("A", ([] : List ProtocolDAGResult))].map Prod.fst)).toFinset.card ∧
      ∀ line ∈ lines.tail, (∃ n, line = n ++ "\tNone\tNone") ∨
        (∃ n d e, line = n ++ "\t" ++ fmt0 d ++ "\t" ++ fmt0 e) :=
  ⟨rfl, write_results_one_row_per_name fmt0 [("A", [])] [("A", (none, none))] rfl⟩

/-- C4 counterexample to the claim as stated: a network of two
transformations that share the name "A" (as the Network Builder produces
whenever a solute appears in more than one pair) yields a file of two
lines — header plus a single "A" row — not the three lines the claim's
one-row-per-transformation reading requires. -/
theorem write_results_name_collision :
    runGather fmt0 (some "u") (some "k") none none
        [("A", []), ("A", [])] =
      (.ok (), some [headerLine, "A\tNone\tNone"]) ∧
    ([headerLine, "A\tNone\tNone"] : List String).length ≠ 1 + 2 :=
  ⟨rfl, by decide⟩

/-- C10: the gatherer opens and writes its output file only after results
for every transformation have been fetched and aggregated — when
aggregation of any transformation raises, the run terminates with that
error and the output file is never created; when the whole loop succeeds,
the file is written in full. -/
theorem run_writes_only_after_full_gather (fmt : ℝ → String)
    (user_id user_key env_id env_key : Option String)
    (remote : RemoteNetwork) (u k : String)
    (hid : resolveCred user_id env_id = .ok u)
    (hkey : resolveCred user_key env_key = .ok k) :
    (∀ e, gatherLoop [] remote = .error e →
      runGather fmt user_id user_key env_id env_key remote =
        (.error e, none)) ∧
    (∀ results, gatherLoop [] remote = .ok results →
      ∃ lines, _write_results fmt results = some lines ∧
        runGather fmt user_id user_key env_id env_key remote =
          (.ok (), some lines)) := by
  constructor
  · intro e he
    simp only [runGather, hid, hkey, he]
  · intro results hres
    obtain ⟨lines, hw, hhead, hlen, hform⟩ :=
      write_results_one_row_per_name fmt remote results hres
    refine ⟨lines, hw, ?_⟩
    simp only [runGather, hid, hkey, hres, hw]

/-- C10 witness: a network whose single transformation's aggregation
raises `IndexError` leaves the output file unwritten. -/
theorem run_writes_only_after_full_gather_witness :
    resolveCred (some "u") none = .ok "u" ∧
    resolveCred (some "k") none = .ok "k" ∧
    gatherLoop [] [("A", [⟨[⟨false, .solvent, ⟨1, .kJ_per_mol⟩⟩]⟩])] =
      .error .indexError ∧
    runGather fmt0 (some "u") (some "k") none none
        [("A", [⟨[⟨false, .solvent, ⟨1, .kJ_per_mol⟩⟩]⟩])] =
      (.error .indexError, none) :=
  ⟨rfl, rfl, rfl,
   (run_writes_only_after_full_gather fmt0 (some "u") (some "k") none none
     [("A", [⟨[⟨false, .solvent, ⟨1, .kJ_per_mol⟩⟩]⟩])] "u" "k" rfl rfl).1
     .indexError rfl⟩

/-! ## Permutation-pair lemmas (for the network-shape claims) -/

theorem enumFrom_filter_ne_of_lt {α : Type} (l : List α) (k i : ℕ)
    (h : i < k) :
    (l.enumFrom k).filter (fun q => q.1 ≠ i) = l.enumFrom k := by
  induction l generalizing k with
  | nil => rfl
  | cons a rest ih =>
    have hki : ¬ (k = i) := by omega
    simp only [List.enumFrom_cons, List.filter_cons]
    rw [ih (k + 1) (by omega)]
    simp [hki]

theorem enumFrom_filter_ne_length {α : Type} (l : List α) (k i : ℕ)
    (hk : k ≤ i) (hi : i < k + l.length) :
    ((l.enumFrom k).filter (fun q => q.1 ≠ i)).length = l.length - 1 := by
  induction l generalizing k with
  | nil => simp at hi; omega
  | cons a rest ih =>
    by_cases hik : k = i
    · subst hik
      have hcond : (decide ((k, a).1 ≠ k)) = false := by
        simp
      rw [List.enumFrom_cons, List.filter_cons, hcond]
      simp only [Bool.false_eq_true, if_false]
      rw [enumFrom_filter_ne_of_lt rest (k + 1) k (by omega)]
      simp [List.enumFrom_length]
    · have hcond : (decide ((k, a).1 ≠ i)) = true := by
        simp only [decide_eq_true_eq]
        simpa using hik
      rw [List.enumFrom_cons, List.filter_cons, hcond]
      simp only [if_true]
      rw [List.length_cons, ih (k + 1) (by omega) (by simp at hi ⊢; omega)]
      have : 1 ≤ rest.length := by
        simp only [List.length_cons] at hi
        omega
      simp only [List.length_cons]
      omega

theorem sum_map_const_of {α : Type} (l : List α) (f : α → ℕ) (c : ℕ)
    (h : ∀ x ∈ l, f x = c) : (l.map f).sum = l.length * c := by
  induction l with
  | nil => simp
  | cons a rest ih =>
    simp only [List.map_cons, List.sum_cons, List.length_cons]
    rw [h a (List.mem_cons_self _ _),
      ih (fun x hx => h x (List.mem_cons_of_mem _ hx))]
    ring

theorem fst_lt_of_mem_enum {α : Type} {l : List α} {p : ℕ × α}
    (h : p ∈ l.enum) : p.1 < l.length := by
  obtain ⟨i, a⟩ := p
  rw [List.mk_mem_enum_iff_getElem?] at h
  exact (List.getElem?_eq_some_iff.mp h).1

theorem snd_mem_of_mem_enum {α : Type} {l : List α} {p : ℕ × α}
    (h : p ∈ l.enum) : p.2 ∈ l := by
  obtain ⟨i, a⟩ := p
  rw [List.mk_mem_enum_iff_getElem?] at h
  obtain ⟨hi, hia⟩ := List.getElem?_eq_some_iff.mp h
  exact hia ▸ List.getElem_mem hi

theorem nodup_enum {α : Type} (l : List α) : l.enum.Nodup :=
  (List.nodup_enum_map_fst l).of_map _

/-- In the enumeration of a duplicate-free list, the value determines the
whole (index, value) entry. -/
theorem enum_snd_inj {α : Type} {l : List α} (hnd : l.Nodup) {p q : ℕ × α}
    (hp : p ∈ l.enum) (hq : q ∈ l.enum) (h2 : p.2 = q.2) : p = q := by
  obtain ⟨i, a⟩ := p
  obtain ⟨j, b⟩ := q
  simp only at h2
  subst h2
  rw [List.mk_mem_enum_iff_getElem?] at hp hq
  obtain ⟨hi, hia⟩ := List.getElem?_eq_some_iff.mp hp
  obtain ⟨hj, hja⟩ := List.getElem?_eq_some_iff.mp hq
  have hij : i = j := (hnd.getElem_inj_iff).mp (hia.trans hja.symm)
  subst hij
  rfl

/-- `itertools.permutations(l, 2)` has exactly `n·(n−1)` elements. -/
theorem permutations2_length {α : Type} (l : List α) :
    (permutations2 l).length = l.length * (l.length - 1) := by
  unfold permutations2
  rw [List.length_flatMap]
  rw [sum_map_const_of _ _ (l.length - 1) ?_, List.enum_length]
  intro p hp
  simp only [Function.comp_apply]
  rw [List.length_map]
  have hp1 : p.1 < l.length := fst_lt_of_mem_enum hp
  exact enumFrom_filter_ne_length l 0 p.1 (Nat.zero_le _) (by omega)

/-- Membership in `itertools.permutations(l, 2)` over a duplicate-free
list: exactly the ordered pairs of distinct elements. -/
theorem mem_permutations2 {α : Type} {l : List α} (hnd : l.Nodup)
    (a b : α) :
    (a, b) ∈ permutations2 l ↔ a ∈ l ∧ b ∈ l ∧ a ≠ b := by
  unfold permutations2
  rw [List.mem_flatMap]
  constructor
  · rintro ⟨p, hp, hmem⟩
    rw [List.mem_map] at hmem
    obtain ⟨q, hq, hpq⟩ := hmem
    obtain ⟨hqe, hqne⟩ := List.mem_filter.mp hq
    have hne : q.1 ≠ p.1 := by simpa using hqne
    injection hpq with h1 h2
    subst h1
    subst h2
    refine ⟨snd_mem_of_mem_enum hp, snd_mem_of_mem_enum hqe, ?_⟩
    intro hab
    exact hne (congrArg Prod.fst (enum_snd_inj hnd hqe hp hab.symm))
  · rintro ⟨ha, hb, hab⟩
    obtain ⟨i, hi, hia⟩ := List.mem_iff_getElem.mp ha
    obtain ⟨j, hj, hjb⟩ := List.mem_iff_getElem.mp hb
    refine ⟨(i, a), ?_, ?_⟩
    · rw [List.mk_mem_enum_iff_getElem?]
      exact List.getElem?_eq_some_iff.mpr ⟨hi, hia⟩
    · rw [List.mem_map]
      refine ⟨(j, b), List.mem_filter.mpr ⟨?_, ?_⟩, rfl⟩
      · rw [List.mk_mem_enum_iff_getElem?]
        exact List.getElem?_eq_some_iff.mpr ⟨hj, hjb⟩
      · simp only [decide_eq_true_eq]
        intro hji
        subst hji
        exact hab (hia.symm.trans hjb)

/-- `itertools.permutations(l, 2)` over a duplicate-free list has no
duplicate pairs. -/
theorem nodup_permutations2 {α : Type} {l : List α} (hnd : l.Nodup) :
    (permutations2 l).Nodup := by
  unfold permutations2
  rw [List.nodup_flatMap]
  constructor
  · intro p hp
    apply List.Nodup.map_on
    · intro q hq q' hq' hpq
      injection hpq with h1 h2
      exact enum_snd_inj hnd (List.mem_filter.mp hq).1
        (List.mem_filter.mp hq').1 h2
    · exact (nodup_enum l).filter _
  · rw [List.pairwise_iff_forall_sublist]
    intro p p' hsub
    have hp : p ∈ l.enum := hsub.subset (by simp)
    have hp' : p' ∈ l.enum := hsub.subset (by simp)
    have hne : p ≠ p' := by
      have h2 := (nodup_enum l).sublist hsub
      simp only [List.nodup_cons, List.mem_singleton] at h2
      exact h2.1
    intro x hx hx'
    rw [List.mem_map] at hx hx'
    obtain ⟨q, hq, hxq⟩ := hx
    obtain ⟨q', hq', hxq'⟩ := hx'
    have h22 : p.2 = p'.2 := by
      rw [← hxq] at hxq'
      exact (congrArg Prod.fst hxq').symm
    exact hne (enum_snd_inj hnd hp hp' h22)

/-! ## Network-shape lemmas -/

/-- Every solute component is built from its own SMILES: molecule and
component name both equal the input line. -/
theorem solutes_mem_form (L : List String) (x : SmallMoleculeComponent)
    (hx : x ∈ get_small_molecule_components L) :
    x = ⟨⟨x.molecule.smiles, x.molecule.smiles⟩, x.molecule.smiles⟩ ∧
      x.molecule.smiles ∈ L := by
  unfold get_small_molecule_components at hx
  rw [List.mem_map] at hx
  obtain ⟨s, hs, rfl⟩ := hx
  exact ⟨rfl, hs⟩

theorem solutes_nodup (L : List String) (hnd : L.Nodup) :
    (get_small_molecule_components L).Nodup := by
  unfold get_small_molecule_components
  refine hnd.map ?_
  intro s t h
  exact congrArg SmallMoleculeComponent.name h

theorem mem_network_form (L : List String) (p : ASFEProtocol) (c : ℚ)
    (t : Transformation) (h : t ∈ get_alchem_network L p c) :
    ∃ pr ∈ permutations2 (get_small_molecule_components L),
      t = { stateA := _get_stateA pr.1 ⟨pr.2, c⟩,
            stateB := _get_stateB ⟨pr.2, c⟩,
            protocol := p, name := pr.1.name } := by
  unfold get_alchem_network at h
  rw [List.mem_map] at h
  obtain ⟨pr, hpr, heq⟩ := h
  exact ⟨pr, hpr, heq.symm⟩

/-- The first and second components of a permutation pair come from the
underlying list (no distinctness needed). -/
theorem mem_of_mem_permutations2 {α : Type} {l : List α} {pr : α × α}
    (h : pr ∈ permutations2 l) : pr.1 ∈ l ∧ pr.2 ∈ l := by
  unfold permutations2 at h
  rw [List.mem_flatMap] at h
  obtain ⟨p, hp, hmem⟩ := h
  rw [List.mem_map] at hmem
  obtain ⟨q, hq, hpq⟩ := hmem
  rw [← hpq]
  exact ⟨snd_mem_of_mem_enum hp,
    snd_mem_of_mem_enum (List.mem_filter.mp hq).1⟩

/-- The descriptor pairs of a built network, read off the chemical
systems, are the smiles pairs of the underlying permutation pairs. -/
theorem network_descPairs (L : List String) (p : ASFEProtocol) (c : ℚ) :
    (get_alchem_network L p c).map Transformation.descPair =
      (permutations2 (get_small_molecule_components L)).map
        (fun pr => (some pr.1.molecule.smiles,
          some pr.2.molecule.smiles)) := by
  unfold get_alchem_network
  rw [List.map_map]
  apply List.map_congr_left
  intro pr hpr
  rfl

/-- C1: for an input of N distinct molecule descriptors, the Network
Builder generates exactly N·(N−1) transformations — one per ordered pair
(solute, solvent-source) of distinct descriptors, with no duplicate pair —
and every transformation's name equals its solute descriptor string. -/
theorem network_is_all_ordered_pairs (L : List String) (p : ASFEProtocol)
    (c : ℚ) (hnd : L.Nodup) :
    (get_alchem_network L p c).length = L.length * (L.length - 1) ∧
    ((get_alchem_network L p c).map Transformation.descPair).Nodup ∧
    (∀ a b : String,
      (some a, some b) ∈
          (get_alchem_network L p c).map Transformation.descPair ↔
        a ∈ L ∧ b ∈ L ∧ a ≠ b) ∧
    (∀ t ∈ get_alchem_network L p c, t.soluteDesc = some t.name) := by
  have hsn : (get_small_molecule_components L).Nodup := solutes_nodup L hnd
  refine ⟨?_, ?_, ?_, ?_⟩
  · unfold get_alchem_network
    rw [List.length_map, permutations2_length]
    unfold get_small_molecule_components
    rw [List.length_map]
  · rw [network_descPairs]
    apply List.Nodup.map_on ?_ (nodup_permutations2 hsn)
    intro q hq q' hq' hpq
    obtain ⟨hq1, hq2⟩ := mem_of_mem_permutations2 hq
    obtain ⟨hq1', hq2'⟩ := mem_of_mem_permutations2 hq'
    obtain ⟨hf1, _⟩ := solutes_mem_form L _ hq1
    obtain ⟨hf2, _⟩ := solutes_mem_form L _ hq2
    obtain ⟨hf1', _⟩ := solutes_mem_form L _ hq1'
    obtain ⟨hf2', _⟩ := solutes_mem_form L _ hq2'
    injection hpq with hpq1 hpq2
    injection hpq1 with hs1
    injection hpq2 with hs2
    have e1 : q.1 = q'.1 := by rw [hf1, hf1', hs1]
    have e2 : q.2 = q'.2 := by rw [hf2, hf2', hs2]
    exact Prod.ext e1 e2
  · intro a b
    rw [network_descPairs, List.mem_map]
    constructor
    · rintro ⟨pr, hpr, heq⟩
      obtain ⟨h1, h2⟩ := mem_of_mem_permutations2 hpr
      obtain ⟨hf1, hm1⟩ := solutes_mem_form L _ h1
      obtain ⟨hf2, hm2⟩ := solutes_mem_form L _ h2
      injection heq with heq1 heq2
      injection heq1 with ha
      injection heq2 with hb
      subst ha
      subst hb
      refine ⟨hm1, hm2, ?_⟩
      intro hab
      have hqq : pr.1 = pr.2 := by rw [hf1, hf2, hab]
      obtain ⟨x, y⟩ := pr
      simp only at hqq
      subst hqq
      have := (mem_permutations2 hsn x x).mp hpr
      exact this.2.2 rfl
    · rintro ⟨ha, hb, hab⟩
      refine ⟨(⟨⟨a, a⟩, a⟩, ⟨⟨b, b⟩, b⟩), ?_, rfl⟩
      apply (mem_permutations2 hsn _ _).mpr
      refine ⟨?_, ?_, ?_⟩
      · exact List.mem_map_of_mem _ ha
      · exact List.mem_map_of_mem _ hb
      · intro h
        injection h with h1 _
        injection h1 with h2 _
        exact hab h2
  · intro t ht
    obtain ⟨pr, hpr, rfl⟩ := mem_network_form L p c t ht
    obtain ⟨h1, _⟩ := mem_of_mem_permutations2 hpr
    obtain ⟨hf1, _⟩ := solutes_mem_form L _ h1
    show some pr.1.molecule.smiles = some pr.1.name
    have hname : pr.1.name = pr.1.molecule.smiles :=
      congrArg SmallMoleculeComponent.name hf1
    rw [hname]

/-- C1 witness: the two-descriptor input `["C", "O"]` yields the 2·1
ordered pairs with the stated names. -/
theorem network_is_all_ordered_pairs_witness :
    (["C", "O"] : List String).Nodup ∧
    ((get_alchem_network ["C", "O"] ⟨get_settings⟩ 0).length =
      (["C", "O"] : List String).length *
        ((["C", "O"] : List String).length - 1) ∧
    ((get_alchem_network ["C", "O"] ⟨get_settings⟩ 0).map
      Transformation.descPair).Nodup ∧
    (∀ a b : String,
      (some a, some b) ∈
          (get_alchem_network ["C", "O"] ⟨get_settings⟩ 0).map
            Transformation.descPair ↔
        a ∈ (["C", "O"] : List String) ∧ b ∈ (["C", "O"] : List String) ∧
          a ≠ b) ∧
    (∀ t ∈ get_alchem_network ["C", "O"] ⟨get_settings⟩ 0,
      t.soluteDesc = some t.name)) :=
  ⟨by decide, network_is_all_ordered_pairs ["C", "O"] ⟨get_settings⟩ 0
    (by decide)⟩

/-- Every transformation of a built network carries the protocol the
builder was given. -/
theorem protocol_of_mem_network (L : List String) (p : ASFEProtocol)
    (c : ℚ) (t : Transformation) (h : t ∈ get_alchem_network L p c) :
    t.protocol = p := by
  unfold get_alchem_network at h
  rw [List.mem_map] at h
  obtain ⟨pr, hpr, heq⟩ := h
  rw [← heq]

/-- C7: all transformations of a network produced by the Network Builder
reference the same protocol configuration — the one `run` builds from
`get_settings` — so no per-pair settings drift is possible. -/
theorem transformations_share_protocol (input_lines : List String)
    (t1 t2 : Transformation)
    (h1 : t1 ∈ run_build input_lines) (h2 : t2 ∈ run_build input_lines) :
    t1.protocol = t2.protocol ∧ t1.protocol = ⟨get_settings⟩ := by
  have e1 : t1.protocol = ⟨get_settings⟩ :=
    protocol_of_mem_network input_lines ⟨get_settings⟩ 0 t1 h1
  have e2 : t2.protocol = ⟨get_settings⟩ :=
    protocol_of_mem_network input_lines ⟨get_settings⟩ 0 t2 h2
  exact ⟨e1.trans e2.symm, e1⟩

/-- The C ∈ O transformation of the `["C", "O"]` network (solute "C"
dissolved in solvent molecule "O"). -/
def tCO : Transformation :=
  { stateA := _get_stateA ⟨⟨"C", "C"⟩, "C"⟩ ⟨⟨⟨"O", "O"⟩, "O"⟩, 0⟩
    stateB := _get_stateB ⟨⟨⟨"O", "O"⟩, "O"⟩, 0⟩
    protocol := ⟨get_settings⟩
    name := "C" }

/-- The O ∈ C transformation of the `["C", "O"]` network. -/
def tOC : Transformation :=
  { stateA := _get_stateA ⟨⟨"O", "O"⟩, "O"⟩ ⟨⟨⟨"C", "C"⟩, "C"⟩, 0⟩
    stateB := _get_stateB ⟨⟨⟨"C", "C"⟩, "C"⟩, 0⟩
    protocol := ⟨get_settings⟩
    name := "O" }

/-- C7 witness: the two transformations of the `["C", "O"]` network share
one protocol value, the one built from `get_settings`. -/
theorem transformations_share_protocol_witness :
    tCO ∈ run_build ["C", "O"] ∧ tOC ∈ run_build ["C", "O"] ∧
    tCO.protocol = tOC.protocol ∧ tCO.protocol = ⟨get_settings⟩ := by
  have hrun : run_build ["C", "O"] = [tCO, tOC] := rfl
  have hm1 : tCO ∈ run_build ["C", "O"] := by
    rw [hrun]
    exact List.mem_cons_self _ _
  have hm2 : tOC ∈ run_build ["C", "O"] := by
    rw [hrun]
    exact List.mem_cons_of_mem _ (List.mem_cons_self _ _)
  refine ⟨hm1, hm2, ?_, ?_⟩
  · exact (transformations_share_protocol ["C", "O"] tCO tOC hm1 hm2).1
  · exact (transformations_share_protocol ["C", "O"] tCO tOC hm1 hm2).2

end AlchemiscaleUtilities
